import Mathlib

/-!
Verification of the TrabSecInfo file-transfer programs (client.py, server.py).

The wire protocol is embedded at the byte level: a byte is a Nat, a byte
string is a List Nat, and the stream of network reads is a List (List Nat)
of chunks, one entry per return of recv.  The delimiter byte of the header
is 124, the code of the pipe character.  Text handling in the Python code
(str.encode, bytes.decode) is modelled through an explicit UTF-8 validity
check: a decoded text value is represented by its UTF-8 byte sequence,
which determines the string uniquely.
-/

/-- byte value of the header delimiter, the pipe character -/
def delim : Nat := 124

/-- ASCII whitespace bytes stripped by the Python int conversion -/
def isSpaceByte (b : Nat) : Bool := b = 32 || b = 9 || b = 10 || b = 13 || b = 11 || b = 12

/-- ASCII decimal digit bytes -/
def isDigitByte (b : Nat) : Bool := 48 ≤ b && b ≤ 57

/-- numeric value of a big-endian list of ASCII digit bytes -/
def digitsToNat (l : List Nat) : Nat :=
  l.foldl (fun acc b => acc * 10 + (b - 48)) 0

/-- strip ASCII whitespace from both ends of a byte string -/
def stripSpaces (l : List Nat) : List Nat :=
  ((l.dropWhile isSpaceByte).reverse.dropWhile isSpaceByte).reverse

/-- continuation of a digit run in the Python integer grammar: digits in which
    a single grouping underscore may appear, each underscore followed by a
    digit, with no leading, trailing, or doubled underscores -/
def digitsUnderscore : List Nat → Bool
  | [] => true
  | [b] => isDigitByte b
  | b :: c :: rest =>
    if isDigitByte b then digitsUnderscore (c :: rest)
    else if b = 95 then isDigitByte c && digitsUnderscore rest
    else false

/-- the unsigned body accepted by the Python int conversion: a digit followed
    by a digit run with optional underscore grouping -/
def pyIntBody (l : List Nat) : Bool :=
  match l with
  | [] => false
  | b :: rest => isDigitByte b && digitsUnderscore rest

/-- the digit bytes of a body with its grouping underscores removed; the
    Python int conversion ignores the underscores when computing the value -/
def dropUnderscores (l : List Nat) : List Nat :=
  l.filter (fun b => decide (b ≠ 95))

/-- models the Python int conversion applied to a decoded header field:
    optional surrounding whitespace, an optional sign, then a nonempty digit
    run with optional single-underscore grouping.  For ASCII text this is
    exact: the whitespace bytes Python strips here are precisely 9 to 13 and
    32, and the underscore grouping rules are those of the language.
    Non-ASCII numerals and whitespace, which Python also accepts inside
    decoded text, lie outside this byte-level model; the theorem that relies
    on a failing parse restricts the size field to ASCII bytes accordingly. -/
def pyInt (s : List Nat) : Option Int :=
  match stripSpaces s with
  | [] => none
  | b :: rest =>
    if b = 45 then
      if pyIntBody rest then some (-(digitsToNat (dropUnderscores rest) : Int)) else none
    else if b = 43 then
      if pyIntBody rest then some ((digitsToNat (dropUnderscores rest) : Int)) else none
    else if pyIntBody (b :: rest) then some ((digitsToNat (dropUnderscores (b :: rest)) : Int))
    else none

/-- fuel-driven decimal printer for positive numbers, big-endian ASCII digits -/
def natDigitsAux : Nat → Nat → List Nat
  | 0, _ => []
  | fuel + 1, n => if n = 0 then [] else natDigitsAux fuel (n / 10) ++ [n % 10 + 48]

/-- ASCII bytes of the Python decimal rendering str of a natural number -/
def natDigits (n : Nat) : List Nat :=
  if n = 0 then [48] else natDigitsAux n n

/-- index of the first occurrence of a byte, models bytes.find -/
def findByte (b : Nat) : List Nat → Option Nat
  | [] => none
  | x :: xs => if x = b then some 0 else (findByte b xs).map (· + 1)

/-- split a byte string at every delimiter byte, models str.split on the pipe
    character: a trailing delimiter yields a trailing empty field -/
def splitOnDelim : List Nat → List (List Nat)
  | [] => [[]]
  | x :: xs =>
    if x = delim then [] :: splitOnDelim xs
    else
      match splitOnDelim xs with
      | [] => [[x]]
      | p :: ps => (x :: p) :: ps

/-- UTF-8 continuation byte -/
def isContByte (b : Nat) : Bool := 0x80 ≤ b && b ≤ 0xBF

/-- consume one complete UTF-8 encoded character from the front of a byte
    sequence, returning the remaining bytes; the lead-byte ranges follow the
    UTF-8 definition used by the Python bytes.decode call, excluding overlong
    forms and surrogates -/
def utf8Chomp (l : List Nat) : Option (List Nat) :=
  match l with
  | [] => none
  | b :: rest =>
    if b ≤ 0x7F then some rest
    else if 0xC2 ≤ b ∧ b ≤ 0xDF then
      match rest with
      | c1 :: r => if isContByte c1 then some r else none
      | [] => none
    else if b = 0xE0 then
      match rest with
      | c1 :: c2 :: r =>
        if (0xA0 ≤ c1 && c1 ≤ 0xBF) && isContByte c2 then some r else none
      | _ => none
    else if (0xE1 ≤ b ∧ b ≤ 0xEC) ∨ b = 0xEE ∨ b = 0xEF then
      match rest with
      | c1 :: c2 :: r => if isContByte c1 && isContByte c2 then some r else none
      | _ => none
    else if b = 0xED then
      match rest with
      | c1 :: c2 :: r => if (0x80 ≤ c1 && c1 ≤ 0x9F) && isContByte c2 then some r else none
      | _ => none
    else if b = 0xF0 then
      match rest with
      | c1 :: c2 :: c3 :: r =>
        if (0x90 ≤ c1 && c1 ≤ 0xBF) && isContByte c2 && isContByte c3 then some r else none
      | _ => none
    else if 0xF1 ≤ b ∧ b ≤ 0xF3 then
      match rest with
      | c1 :: c2 :: c3 :: r =>
        if isContByte c1 && isContByte c2 && isContByte c3 then some r else none
      | _ => none
    else if b = 0xF4 then
      match rest with
      | c1 :: c2 :: c3 :: r =>
        if (0x80 ≤ c1 && c1 ≤ 0x8F) && isContByte c2 && isContByte c3 then some r else none
      | _ => none
    else none

/-- character-by-character validation with a fuel bound on the number of
    characters; the fuel is only a termination device -/
def utf8ValidAux : Nat → List Nat → Bool
  | _, [] => true
  | 0, _ :: _ => false
  | fuel + 1, b :: rest =>
    match utf8Chomp (b :: rest) with
    | none => false
    | some r => utf8ValidAux fuel r

/-- whether a byte sequence is valid UTF-8, the success condition of the
    Python bytes.decode call on the header -/
def utf8Valid (l : List Nat) : Bool := utf8ValidAux l.length l

/-- models the Python slice data[:k] for an int k: a negative bound counts from
    the end of the list -/
def pySlice (k : Int) (l : List Nat) : List Nat :=
  if 0 ≤ k then l.take k.toNat else l.take (l.length - (-k).toNat)

/-- concatenation of the chunks of a byte stream -/
def flattenChunks : List (List Nat) → List Nat
  | [] => []
  | c :: cs => c ++ flattenChunks cs

/-!
Client-side framing (client.py lines 94-103): the header is the UTF-8 bytes of
the text name, a pipe, the decimal size, a pipe; the payload follows.
-/

/-- bytes of the header built by the client from the file name bytes and the
    payload byte length -/
def encodeHeader (nameBytes : List Nat) (filesize : Nat) : List Nat :=
  nameBytes ++ delim :: natDigits filesize ++ [delim]

/-- full frame sent by the client: header then payload bytes -/
def encodeFrame (nameBytes payload : List Nat) : List Nat :=
  encodeHeader nameBytes payload.length ++ payload

/-- bytes of the fixed acknowledgement text sent by the server
    (server.py line 147) -/
def ackMessage : List Nat :=
  [65, 67, 75, 58, 32, 65, 114, 113, 117, 105, 118, 111, 32, 114, 101, 99, 101,
   98, 105, 100, 111, 32, 99, 111, 109, 32, 115, 117, 99, 101, 115, 115, 111, 33]

/-- bytes of the output directory name used by the server (server.py line 17) -/
def outputDirBytes : List Nat :=
  [114, 101, 99, 101, 105, 118, 101, 100, 95, 102, 105, 108, 101, 115]

/-- protocol tag bytes chosen by the server, TLS or TCP (server.py line 101) -/
def protoTag (useTls : Bool) : List Nat :=
  if useTls then [84, 76, 83] else [84, 67, 80]

/-- full path of the persisted file: output directory, slash, protocol tag,
    underscore, declared name (server.py line 140, a POSIX path join) -/
def outputPath (useTls : Bool) (nameBytes : List Nat) : List Nat :=
  outputDirBytes ++ 47 :: protoTag useTls ++ 95 :: nameBytes

/-!
Server-side streaming decoder (server.py lines 99-153).
-/

/-- receive-loop state of the handler: the accumulated buffer, whether the
    header was parsed, and the parsed name and declared size -/
structure RecvState where
  data : List Nat
  headerReceived : Bool
  filename : List Nat
  filesize : Int
deriving DecidableEq

/-- state of the handler before the first recv (server.py lines 105-108) -/
def initState : RecvState := ⟨[], false, [], 0⟩

/-- result of the header-extraction block on the current buffer -/
inductive HeaderParse where
  | notYet
  | failed
  | parsed (filename : List Nat) (filesize : Int) (rest : List Nat)
deriving DecidableEq

/-- models the header-extraction block (server.py lines 118-132).  The code
    looks for the second delimiter; while it is absent the computed header is
    empty and has fewer than two fields, so the loop keeps reading.  Once both
    delimiters are present the header bytes are decoded as UTF-8, split on the
    delimiter, and the second field is converted by int; a decode or int
    failure raises, which the handler catches. -/
def processHeader (data : List Nat) : HeaderParse :=
  match findByte delim data with
  | none => .notYet
  | some i =>
    match findByte delim (data.drop (i + 1)) with
    | none => .notYet
    | some k =>
      let headerEnd := i + 1 + k + 1
      let headerBytes := data.take headerEnd
      if utf8Valid headerBytes then
        match splitOnDelim headerBytes with
        | p0 :: p1 :: _ =>
          match pyInt p1 with
          | some n => .parsed p0 n (data.drop headerEnd)
          | none => .failed
        | _ => .notYet
      else .failed

/-- one iteration of the receive loop on a nonempty chunk (server.py lines
    111-136): append the chunk, parse the header if not yet received, then
    report whether the completion test len data at least filesize fires.
    An error value models an exception escaping to the handler catch. -/
def recvStep (st : RecvState) (c : List Nat) : Except Unit (RecvState × Bool) :=
  let data := st.data ++ c
  if st.headerReceived then
    .ok ({ st with data := data }, decide (st.filesize ≤ (data.length : Int)))
  else
    match processHeader data with
    | .notYet => .ok ({ st with data := data }, false)
    | .failed => .error ()
    | .parsed fn n rest => .ok (⟨rest, true, fn, n⟩, decide (n ≤ (rest.length : Int)))

/-- the receive loop (server.py lines 110-136) over the list of chunks
    returned by successive recv calls; an empty chunk is end of stream and
    stops the loop, as does exhaustion of the list -/
def recvLoop : RecvState → List (List Nat) → Except Unit RecvState
  | st, [] => .ok st
  | st, c :: cs =>
    if c = [] then .ok st
    else
      match recvStep st c with
      | .error e => .error e
      | .ok (st2, true) => .ok st2
      | .ok (st2, false) => recvLoop st2 cs

/-- observable outcome of one handler run: the persisted file, the messages
    sent back to the client, whether an exception was reported, and whether
    the connection socket was closed -/
structure HandlerOutcome where
  written : Option (List Nat × List Nat)
  sent : List (List Nat)
  errored : Bool
  socketClosed : Bool
deriving DecidableEq

/-- models the handler for one connection (server.py lines 99-153): run the
    receive loop on the delivered chunks; if a header was received, write the
    slice data up to filesize under the tagged path and send the fixed
    acknowledgement; any exception is caught and reported; the finally clause
    closes the socket on every path.  Filesystem write failures and failures
    of the acknowledgement send are outside the model. -/
def handle_client (useTls : Bool) (chunks : List (List Nat)) : HandlerOutcome :=
  match recvLoop initState chunks with
  | .error _ => ⟨none, [], true, true⟩
  | .ok st =>
    if st.headerReceived then
      ⟨some (outputPath useTls st.filename, pySlice st.filesize st.data),
       [ackMessage], false, true⟩
    else ⟨none, [], false, true⟩

/-- the decode view of the receive loop: the parsed header fields together
    with the persisted content slice, and nothing on error or missing header -/
def decodeFrame (chunks : List (List Nat)) : Option (List Nat × Int × List Nat) :=
  match recvLoop initState chunks with
  | .error _ => none
  | .ok st =>
    if st.headerReceived then some (st.filename, st.filesize, pySlice st.filesize st.data)
    else none

/-- one iteration of the accept loop (server.py lines 66-92): after accept,
    a TLS server wraps the socket; a handshake failure raises inside the loop
    try and is caught at line 90 without starting a handler, but the accepted
    file descriptor is already closed by then: wrap_socket detaches the fd
    from the accepted socket into the SSL socket, whose construction closes
    itself in its own exception handler before re-raising the handshake
    error (CPython ssl.SSLSocket, creation routine: a detach of the fd, then
    on OSError or ValueError a close followed by the re-raise, and SSL errors
    are OSError instances).  Otherwise the handler runs and its finally clause
    closes the socket.  The returned flag records whether the accepted socket
    is closed before the loop waits for the next connection. -/
def acceptIteration (useTls : Bool) (handshakeOk : Bool) (chunks : List (List Nat)) :
    Option HandlerOutcome × Bool :=
  if useTls && !handshakeOk then (none, true)
  else
    let o := handle_client useTls chunks
    (some o, o.socketClosed)

/-- events arriving at the accept loop -/
inductive AcceptEvent where
  | conn (handshakeOk : Bool) (chunks : List (List Nat))
  | acceptError
  | keyboardInterrupt
deriving DecidableEq

/-- whether an accept event is an accepted client connection -/
def isConnEvent : AcceptEvent → Bool
  | .conn _ _ => true
  | _ => false

/-- the accept loop (server.py lines 66-92): a connection is served through
    acceptIteration whatever its outcome; an accept exception is caught and
    the loop continues; a keyboard interrupt breaks the loop -/
def serverLoop (useTls : Bool) : List AcceptEvent → List (Option HandlerOutcome)
  | [] => []
  | .conn hs cs :: rest => (acceptIteration useTls hs cs).1 :: serverLoop useTls rest
  | .acceptError :: rest => serverLoop useTls rest
  | .keyboardInterrupt :: _ => []

/-- the start routine (server.py lines 53-97): socket setup, bind and listen
    can fail, in which case no connection is ever served; otherwise the accept
    loop runs over the incoming events -/
def serverStart (useTls : Bool) (bindOk : Bool) (events : List AcceptEvent) :
    List (Option HandlerOutcome) :=
  if bindOk then serverLoop useTls events else []

/-!
Client session (client.py lines 25-123).
-/

/-- operator-visible log classes emitted by the client connect methods -/
inductive LogMsg where
  | tcpOk
  | tcpFail
  | tlsOk
  | tlsFail
deriving DecidableEq

/-- connect_plain (client.py lines 25-35): create a socket and connect; any
    exception yields the return value false and a TCP failure message -/
def connect_plain (connectOk : Bool) : Bool × List LogMsg :=
  if connectOk then (true, [.tcpOk]) else (false, [.tcpFail])

/-- connect_tls (client.py lines 37-69): wrap the socket in a TLS context and
    connect, which also performs the handshake; an exception from either step
    is caught by the same handler and yields false with a TLS failure
    message -/
def connect_tls (wrapOk : Bool) (connectHandshakeOk : Bool) : Bool × List LogMsg :=
  if wrapOk && connectHandshakeOk then (true, [.tlsOk]) else (false, [.tlsFail])

/-- order of the observable steps of send_file -/
inductive ClientEvent where
  | timeStart
  | sendHeader
  | sendPayload
  | timeEnd
  | recvAck
  | statsUpdate
deriving DecidableEq

/-- the transfer_stats dictionary of the client (client.py lines 15-19);
    times are modelled as integer clock readings -/
structure TransferStats where
  bytes_sent : Nat
  transfer_time : Int
  packet_overhead : Nat
deriving DecidableEq

/-- initial stats set by the constructor -/
def initStats : TransferStats := ⟨0, 0, 0⟩

/-- result of one send_file call: the returned boolean, the stats field after
    the call, the completed observable steps in order, and the byte strings
    handed to sendall -/
structure SendResult where
  ok : Bool
  stats : TransferStats
  trace : List ClientEvent
  wire : List (List Nat)
deriving DecidableEq

/-- models send_file (client.py lines 71-123).  Failure points of the
    underlying calls are parameters: no socket and a missing file return false
    before any network step; a read, send, or recv exception is caught and
    returns false.  An event enters the trace when the corresponding line
    completes; bytes enter the wire list when their sendall returns.  On
    success the stats are overwritten with the header length plus payload
    length and the clock difference; the overhead field is never touched. -/
def send_file (hasSocket fileExists readOk : Bool) (filename content : List Nat)
    (sendHeaderOk sendPayloadOk recvAckOk : Bool) (startTime endTime : Int)
    (stats : TransferStats) : SendResult :=
  if hasSocket = false then ⟨false, stats, [], []⟩
  else if fileExists = false then ⟨false, stats, [], []⟩
  else if readOk = false then ⟨false, stats, [], []⟩
  else
    let header := encodeHeader filename content.length
    if sendHeaderOk = false then ⟨false, stats, [.timeStart], []⟩
    else if sendPayloadOk = false then ⟨false, stats, [.timeStart, .sendHeader], [header]⟩
    else if recvAckOk = false then
      ⟨false, stats, [.timeStart, .sendHeader, .sendPayload, .timeEnd], [header, content]⟩
    else
      ⟨true,
       ⟨header.length + content.length, endTime - startTime, stats.packet_overhead⟩,
       [.timeStart, .sendHeader, .sendPayload, .timeEnd, .recvAck, .statsUpdate],
       [header, content]⟩

/-!
Supporting lemmas.
-/

lemma findByte_eq_none {b : Nat} {l : List Nat} (h : b ∉ l) : findByte b l = none := by
  induction l with
  | nil => rfl
  | cons x xs ih =>
    have hx : x ≠ b := fun e => h (by simp [e])
    simp [findByte, hx, ih fun m => h (by simp [m])]

lemma findByte_append_cons {b : Nat} {a : List Nat} (r : List Nat) (h : b ∉ a) :
    findByte b (a ++ b :: r) = some a.length := by
  induction a with
  | nil => simp [findByte]
  | cons x xs ih =>
    have hx : x ≠ b := fun e => h (by simp [e])
    simp [findByte, hx, ih fun m => h (by simp [m])]

lemma takeAppendLen (a b : List Nat) (n : Nat) :
    (a ++ b).take (a.length + n) = a ++ b.take n := by
  induction a with
  | nil => simp
  | cons x xs ih =>
    have harith : (x :: xs).length + n = (xs.length + n) + 1 := by simp; omega
    simp only [harith, List.cons_append, List.take_succ_cons, ih]

lemma dropAppendLen (a b : List Nat) (n : Nat) :
    (a ++ b).drop (a.length + n) = b.drop n := by
  induction a with
  | nil => simp
  | cons x xs ih =>
    have harith : (x :: xs).length + n = (xs.length + n) + 1 := by simp; omega
    simp only [harith, List.cons_append, List.drop_succ_cons, ih]

lemma splitOnDelim_append {a : List Nat} (r : List Nat) (h : delim ∉ a) :
    splitOnDelim (a ++ delim :: r) = a :: splitOnDelim r := by
  induction a with
  | nil => simp [splitOnDelim]
  | cons x xs ih =>
    have hx : x ≠ delim := fun e => h (by simp [e])
    have hxs : delim ∉ xs := fun m => h (by simp [m])
    simp only [List.cons_append, splitOnDelim, if_neg hx]
    rw [show xs.append (delim :: r) = xs ++ delim :: r from rfl, ih hxs]

lemma split_of_append_eq :
    ∀ (a : List Nat) {d r b : List Nat}, d ++ r = a ++ b →
      (∃ u, d ++ u = a) ∨ ∃ t v, d = a ++ t ∧ t ++ v = b := by
  intro a
  induction a with
  | nil =>
    intro d r b h
    right
    exact ⟨d, r, by simp, by simpa using h⟩
  | cons x xs ih =>
    intro d r b h
    cases d with
    | nil => exact Or.inl ⟨x :: xs, rfl⟩
    | cons y d2 =>
      obtain ⟨rfl, h2⟩ : y = x ∧ d2 ++ r = xs ++ b := by simpa using h
      rcases ih h2 with ⟨u, hu⟩ | ⟨t, v, h1, h3⟩
      · exact Or.inl ⟨u, by simp [hu]⟩
      · exact Or.inr ⟨t, v, by simp [h1], h3⟩

lemma natDigitsAux_mem :
    ∀ (fuel n : Nat), ∀ b ∈ natDigitsAux fuel n, 48 ≤ b ∧ b ≤ 57 := by
  intro fuel
  induction fuel with
  | zero => intro n b hb; simp [natDigitsAux] at hb
  | succ f ih =>
    intro n b hb
    by_cases hn : n = 0
    · simp [natDigitsAux, hn] at hb
    · simp only [natDigitsAux, if_neg hn, List.mem_append, List.mem_singleton] at hb
      rcases hb with hb | hb
      · exact ih _ b hb
      · have : n % 10 < 10 := Nat.mod_lt _ (by omega)
        omega

lemma natDigits_mem {n : Nat} : ∀ b ∈ natDigits n, 48 ≤ b ∧ b ≤ 57 := by
  intro b hb
  by_cases hn : n = 0
  · simp [natDigits, hn] at hb; omega
  · simp only [natDigits, if_neg hn] at hb
    exact natDigitsAux_mem n n b hb

lemma natDigits_ne_nil (n : Nat) : natDigits n ≠ [] := by
  cases n with
  | zero => simp [natDigits]
  | succ m => simp [natDigits, natDigitsAux]

lemma digitsToNat_aux :
    ∀ (fuel n : Nat), n ≤ fuel → ∀ acc : Nat,
      List.foldl (fun a b => a * 10 + (b - 48)) acc (natDigitsAux fuel n)
        = acc * 10 ^ (natDigitsAux fuel n).length + n := by
  intro fuel
  induction fuel with
  | zero =>
    intro n hn acc
    have : n = 0 := by omega
    simp [natDigitsAux, this]
  | succ f ih =>
    intro n hn acc
    by_cases h0 : n = 0
    · simp [natDigitsAux, h0]
    · have hdiv : n / 10 ≤ f := by
        have : n / 10 < n := Nat.div_lt_self (by omega) (by omega)
        omega
      simp only [natDigitsAux, if_neg h0, List.foldl_append, List.foldl_cons,
        List.foldl_nil, List.length_append, List.length_cons, List.length_nil,
        ih (n / 10) hdiv acc]
      have hm : n % 10 + 48 - 48 = n % 10 := by omega
      rw [hm, pow_succ]
      have := Nat.div_add_mod n 10
      set X := acc * 10 ^ (natDigitsAux f (n / 10)).length with hX
      ring_nf
      omega

lemma digitsToNat_natDigits (n : Nat) : digitsToNat (natDigits n) = n := by
  by_cases hn : n = 0
  · simp [natDigits, hn, digitsToNat]
  · simp only [natDigits, if_neg hn, digitsToNat]
    rw [digitsToNat_aux n n le_rfl 0]
    simp

lemma dropWhile_eq_self {p : Nat → Bool} {l : List Nat} (h : ∀ b ∈ l, p b = false) :
    l.dropWhile p = l := by
  cases l with
  | nil => rfl
  | cons x xs => simp [List.dropWhile_cons, h x (by simp)]

lemma stripSpaces_eq_self {l : List Nat} (h : ∀ b ∈ l, isSpaceByte b = false) :
    stripSpaces l = l := by
  unfold stripSpaces
  rw [dropWhile_eq_self h, dropWhile_eq_self (by intro b hb; exact h b (by simpa using hb)),
    List.reverse_reverse]

lemma digitsUnderscore_all_digits {l : List Nat} (h : ∀ b ∈ l, isDigitByte b = true) :
    digitsUnderscore l = true := by
  induction l with
  | nil => rfl
  | cons x xs ih =>
    have hx : isDigitByte x = true := h x (List.mem_cons_self x xs)
    cases xs with
    | nil => simpa [digitsUnderscore] using hx
    | cons y ys =>
      have ih2 := ih fun b hb => h b (List.mem_cons_of_mem x hb)
      simp [digitsUnderscore, hx, ih2]

lemma dropUnderscores_all_digits {l : List Nat} (h : ∀ b ∈ l, isDigitByte b = true) :
    dropUnderscores l = l := by
  induction l with
  | nil => rfl
  | cons x xs ih =>
    have hx := h x (List.mem_cons_self x xs)
    have hx95 : x ≠ 95 := by simp [isDigitByte] at hx; omega
    have ih2 : List.filter (fun b => decide (b ≠ 95)) xs = xs := by
      have h3 := ih fun b hb => h b (List.mem_cons_of_mem x hb)
      simpa [dropUnderscores] using h3
    show List.filter (fun b => decide (b ≠ 95)) (x :: xs) = x :: xs
    rw [List.filter_cons, if_pos (by simp [hx95]), ih2]

lemma pyInt_digits {l : List Nat} (hne : l ≠ []) (h : ∀ b ∈ l, isDigitByte b = true) :
    pyInt l = some ((digitsToNat l : Nat) : Int) := by
  have hnosp : ∀ b ∈ l, isSpaceByte b = false := by
    intro b hb
    have := h b hb
    simp [isDigitByte] at this
    simp [isSpaceByte]
    omega
  unfold pyInt
  rw [stripSpaces_eq_self hnosp]
  cases l with
  | nil => exact absurd rfl hne
  | cons b rest =>
    have hb := h b (by simp)
    simp [isDigitByte] at hb
    have hb45 : ¬ b = 45 := by omega
    have hb43 : ¬ b = 43 := by omega
    have hrest : ∀ x ∈ rest, isDigitByte x = true :=
      fun x hx => h x (List.mem_cons_of_mem b hx)
    have hbody : pyIntBody (b :: rest) = true := by
      simp [pyIntBody, h b (List.mem_cons_self b rest),
        digitsUnderscore_all_digits hrest]
    simp [hb45, hb43, hbody, dropUnderscores_all_digits h]

lemma pyInt_natDigits (n : Nat) : pyInt (natDigits n) = some ((n : Nat) : Int) := by
  rw [pyInt_digits (natDigits_ne_nil n)
    (by intro b hb; have := natDigits_mem b hb; simp [isDigitByte]; omega)]
  rw [digitsToNat_natDigits]

set_option maxHeartbeats 2000000 in
lemma utf8Chomp_length : ∀ {l r : List Nat}, utf8Chomp l = some r → r.length < l.length := by
  intro l r h
  rcases l with _ | ⟨b, rest⟩
  · exact absurd h (by simp [utf8Chomp])
  · rcases rest with _ | ⟨c1, _ | ⟨c2, _ | ⟨c3, r0⟩⟩⟩ <;>
      simp only [utf8Chomp] at h <;>
      split_ifs at h <;>
      injection h with h2 <;>
      subst h2 <;>
      simp only [List.length_cons, List.length_nil] <;>
      omega

set_option maxHeartbeats 2000000 in
lemma utf8Chomp_append {l r : List Nat} (c : List Nat) (h : utf8Chomp l = some r) :
    utf8Chomp (l ++ c) = some (r ++ c) := by
  rcases l with _ | ⟨b, rest⟩
  · exact absurd h (by simp [utf8Chomp])
  · rcases rest with _ | ⟨c1, _ | ⟨c2, _ | ⟨c3, r0⟩⟩⟩ <;>
      simp only [utf8Chomp, List.cons_append, List.nil_append] at h ⊢ <;>
      split_ifs at h ⊢ <;>
      injection h with h2 <;>
      subst h2 <;>
      simp

lemma utf8ValidAux_nil : ∀ fuel, utf8ValidAux fuel [] = true := by
  intro fuel; cases fuel <;> rfl

lemma utf8ValidAux_fuel :
    ∀ fuel1 fuel2 (l : List Nat), l.length ≤ fuel1 → l.length ≤ fuel2 →
      utf8ValidAux fuel1 l = utf8ValidAux fuel2 l := by
  intro fuel1
  induction fuel1 with
  | zero =>
    intro fuel2 l h1 _
    have : l = [] := by
      cases l with
      | nil => rfl
      | cons x xs => simp at h1
    subst this
    simp [utf8ValidAux_nil]
  | succ f ih =>
    intro fuel2 l h1 h2
    cases l with
    | nil => simp [utf8ValidAux_nil]
    | cons b rest =>
      cases fuel2 with
      | zero => simp at h2
      | succ g =>
        simp only [utf8ValidAux]
        cases hch : utf8Chomp (b :: rest) with
        | none => rfl
        | some r =>
          have hlen := utf8Chomp_length hch
          simp only [List.length_cons] at h1 h2 hlen
          exact ih g r (by omega) (by omega)

lemma utf8Valid_cons (b : Nat) (rest : List Nat) :
    utf8Valid (b :: rest) =
      match utf8Chomp (b :: rest) with
      | none => false
      | some r => utf8Valid r := by
  unfold utf8Valid
  simp only [List.length_cons, utf8ValidAux]
  cases hch : utf8Chomp (b :: rest) with
  | none => rfl
  | some r =>
    have hlen := utf8Chomp_length hch
    simp only [List.length_cons] at hlen
    exact utf8ValidAux_fuel rest.length r.length r (by omega) le_rfl

lemma utf8Valid_append {c : List Nat} (hc : utf8Valid c = true) :
    ∀ a, utf8Valid a = true → utf8Valid (a ++ c) = true := by
  suffices h : ∀ n (a : List Nat), a.length ≤ n → utf8Valid a = true →
      utf8Valid (a ++ c) = true by
    exact fun a => h a.length a le_rfl
  intro n
  induction n with
  | zero =>
    intro a ha hv
    have : a = [] := by
      cases a with
      | nil => rfl
      | cons x xs => simp at ha
    subst this
    simpa using hc
  | succ m ih =>
    intro a ha hv
    cases a with
    | nil => simpa using hc
    | cons b rest =>
      rw [utf8Valid_cons] at hv
      cases hch : utf8Chomp (b :: rest) with
      | none => rw [hch] at hv; exact absurd hv (by simp)
      | some r =>
        rw [hch] at hv
        have hlen := utf8Chomp_length hch
        have hgoal : utf8Valid ((b :: rest) ++ c) =
            match utf8Chomp (b :: (rest ++ c)) with
            | none => false
            | some r2 => utf8Valid r2 := utf8Valid_cons b (rest ++ c)
        rw [hgoal, show (b : Nat) :: (rest ++ c) = (b :: rest) ++ c from rfl,
          utf8Chomp_append c hch]
        simp only [List.length_cons] at hlen ha
        exact ih r (by omega) hv

lemma utf8Valid_ascii : ∀ {l : List Nat}, (∀ b ∈ l, b ≤ 127) → utf8Valid l = true := by
  intro l
  induction l with
  | nil => intro _; rfl
  | cons b rest ih =>
    intro h
    rw [utf8Valid_cons]
    have hch : utf8Chomp (b :: rest) = some rest := by
      simp [utf8Chomp, h b (by simp)]
    rw [hch]
    exact ih fun x hx => h x (by simp [hx])

lemma findByte_some {b : Nat} :
    ∀ {l : List Nat} {i : Nat}, findByte b l = some i →
      ∃ a r, l = a ++ b :: r ∧ a.length = i ∧ b ∉ a := by
  intro l
  induction l with
  | nil => intro i h; simp [findByte] at h
  | cons x xs ih =>
    intro i h
    by_cases hx : x = b
    · subst hx
      simp [findByte] at h
      subst h
      exact ⟨[], xs, rfl, rfl, by simp⟩
    · simp only [findByte, if_neg hx, Option.map_eq_some'] at h
      obtain ⟨j, hj, hji⟩ := h
      obtain ⟨a, r, rfl, hlen, hmem⟩ := ih hj
      refine ⟨x :: a, r, rfl, by simp [hlen, hji], ?_⟩
      simp only [List.mem_cons, not_or]
      exact ⟨fun e => hx e.symm, hmem⟩

lemma processHeader_notYet {name sf d u : List Nat} (hn : delim ∉ name) (hs : delim ∉ sf)
    (hd : d ++ u = name ++ delim :: sf) : processHeader d = .notYet := by
  rcases split_of_append_eq name hd with ⟨w, hw⟩ | ⟨t, v, hdt, htv⟩
  · have hmem : delim ∉ d := fun hm => hn (hw ▸ List.mem_append.mpr (Or.inl hm))
    simp [processHeader, findByte_eq_none hmem]
  · cases t with
    | nil =>
      have hd2 : d = name := by simpa using hdt
      have hmem : delim ∉ d := hd2 ▸ hn
      simp [processHeader, findByte_eq_none hmem]
    | cons x t2 =>
      obtain ⟨rfl, ht2⟩ : x = delim ∧ t2 ++ v = sf := by simpa using htv
      have hmem2 : delim ∉ t2 := fun hm => hs (ht2 ▸ List.mem_append.mpr (Or.inl hm))
      subst hdt
      have h1 : findByte delim (name ++ delim :: t2) = some name.length :=
        findByte_append_cons _ hn
      have h2 : (name ++ delim :: t2).drop (name.length + 1) = t2 := by
        rw [dropAppendLen]
        simp
      simp [processHeader, h1, h2, findByte_eq_none hmem2]

lemma processHeader_one_delim {d : List Nat} (h : List.count delim d ≤ 1) :
    processHeader d = .notYet := by
  cases hf : findByte delim d with
  | none => simp [processHeader, hf]
  | some i =>
    obtain ⟨a, r, rfl, hlen, hmem⟩ := findByte_some hf
    have hcnt : List.count delim r = 0 := by
      have h2 : List.count delim (a ++ delim :: r)
          = List.count delim a + (List.count delim r + 1) := by
        simp [List.count_append, List.count_cons]
      omega
    have hmem2 : delim ∉ r := List.count_eq_zero.mp hcnt
    subst hlen
    have h3 : (a ++ delim :: r).drop (a.length + 1) = r := by
      rw [dropAppendLen]
      simp
    simp [processHeader, hf, h3, findByte_eq_none hmem2]

set_option maxHeartbeats 800000 in
lemma processHeader_complete {name sf t : List Nat} (hn : delim ∉ name) (hs : delim ∉ sf)
    (hv : utf8Valid (name ++ delim :: (sf ++ [delim])) = true) :
    processHeader (name ++ delim :: (sf ++ delim :: t)) =
      match pyInt sf with
      | some z => .parsed name z t
      | none => .failed := by
  have h1 : findByte delim (name ++ delim :: (sf ++ delim :: t)) = some name.length :=
    findByte_append_cons _ hn
  have h2 : (name ++ delim :: (sf ++ delim :: t)).drop (name.length + 1)
      = sf ++ delim :: t := by
    rw [dropAppendLen]
    simp
  have h3 : findByte delim (sf ++ delim :: t) = some sf.length := findByte_append_cons _ hs
  have h4 : (name ++ delim :: (sf ++ delim :: t)).take (name.length + 1 + sf.length + 1)
      = name ++ delim :: (sf ++ [delim]) := by
    rw [show name.length + 1 + sf.length + 1 = name.length + (sf.length + 1 + 1) by omega,
      takeAppendLen, List.take_succ_cons, takeAppendLen]
    simp
  have h5 : (name ++ delim :: (sf ++ delim :: t)).drop (name.length + 1 + sf.length + 1)
      = t := by
    rw [show name.length + 1 + sf.length + 1 = name.length + (sf.length + 1 + 1) by omega,
      dropAppendLen, List.drop_succ_cons, dropAppendLen]
    simp
  have h6 : splitOnDelim (name ++ delim :: (sf ++ [delim])) = name :: sf :: [[]] := by
    rw [splitOnDelim_append _ hn, show (sf : List Nat) ++ [delim] = sf ++ delim :: [] from rfl,
      splitOnDelim_append _ hs]
    rfl
  simp only [processHeader, h1, h2, h3, h4, h5, h6, if_pos hv]

lemma recvLoop_cons (st : RecvState) (c : List Nat) (cs : List (List Nat)) (hc : c ≠ []) :
    recvLoop st (c :: cs) =
      match recvStep st c with
      | .error e => .error e
      | .ok (st2, true) => .ok st2
      | .ok (st2, false) => recvLoop st2 cs := by
  simp [recvLoop, hc]

lemma recvStep_noHeader {acc c : List Nat} (fn : List Nat) (fs : Int)
    (h : processHeader (acc ++ c) = .notYet) :
    recvStep ⟨acc, false, fn, fs⟩ c = .ok (⟨acc ++ c, false, fn, fs⟩, false) := by
  simp [recvStep, h]

lemma recvStep_failed {acc c : List Nat} (fn : List Nat) (fs : Int)
    (h : processHeader (acc ++ c) = .failed) :
    recvStep ⟨acc, false, fn, fs⟩ c = .error () := by
  simp [recvStep, h]

lemma recvStep_parsed {acc c name rest : List Nat} {z : Int} (fn : List Nat) (fs : Int)
    (h : processHeader (acc ++ c) = .parsed name z rest) :
    recvStep ⟨acc, false, fn, fs⟩ c
      = .ok (⟨rest, true, name, z⟩, decide (z ≤ (rest.length : Int))) := by
  simp [recvStep, h]

lemma recvStep_received (p name : List Nat) (z : Int) (c : List Nat) :
    recvStep ⟨p, true, name, z⟩ c
      = .ok (⟨p ++ c, true, name, z⟩, decide (z ≤ ((p ++ c).length : Int))) := by
  simp [recvStep]

lemma recvLoop_no_header :
    ∀ (chunks : List (List Nat)) (acc : List Nat),
      (∀ c ∈ chunks, c ≠ []) →
      List.count delim (acc ++ flattenChunks chunks) ≤ 1 →
      ∃ d, recvLoop ⟨acc, false, [], 0⟩ chunks = .ok ⟨d, false, [], 0⟩ := by
  intro chunks
  induction chunks with
  | nil => intro acc _ _; exact ⟨acc, rfl⟩
  | cons c cs ih =>
    intro acc hne hcnt
    have hc : c ≠ [] := hne c (by simp)
    simp only [flattenChunks, List.count_append] at hcnt
    have hnotyet : processHeader (acc ++ c) = .notYet := by
      apply processHeader_one_delim
      simp only [List.count_append]
      omega
    rw [recvLoop_cons _ _ _ hc, recvStep_noHeader _ _ hnotyet]
    apply ih (acc ++ c) (fun x hx => hne x (by simp [hx]))
    simp only [List.count_append]
    omega

lemma recvLoop_payload (name : List Nat) (z : Int) (rest : List Nat) :
    ∀ (chunks : List (List Nat)) (p : List Nat),
      (∀ c ∈ chunks, c ≠ []) →
      p ++ flattenChunks chunks = rest →
      (p.length : Int) < z →
      ∃ d, recvLoop ⟨p, true, name, z⟩ chunks = .ok ⟨d, true, name, z⟩ ∧
        (∃ u, d ++ u = rest) ∧ (z ≤ (d.length : Int) ∨ d = rest) := by
  intro chunks
  induction chunks with
  | nil =>
    intro p hne hflat hlt
    have hp : p = rest := by
      have h0 : flattenChunks ([] : List (List Nat)) = [] := rfl
      rw [h0, List.append_nil] at hflat
      exact hflat
    exact ⟨p, rfl, ⟨[], by rw [List.append_nil]; exact hp⟩, Or.inr hp⟩
  | cons c cs ih =>
    intro p hne hflat hlt
    have hc : c ≠ [] := hne c (by simp)
    have hflat2 : (p ++ c) ++ flattenChunks cs = rest := by
      simpa [flattenChunks, List.append_assoc] using hflat
    rw [recvLoop_cons _ _ _ hc, recvStep_received]
    by_cases hbr : z ≤ ((p ++ c).length : Int)
    · rw [decide_eq_true hbr]
      exact ⟨p ++ c, rfl, ⟨flattenChunks cs, hflat2⟩, Or.inl hbr⟩
    · rw [decide_eq_false hbr]
      exact ih (p ++ c) (fun x hx => hne x (by simp [hx])) hflat2 (not_le.mp hbr)

lemma recvLoop_header (name sf rest : List Nat) (hn : delim ∉ name) (hs : delim ∉ sf)
    (hv : utf8Valid (name ++ delim :: (sf ++ [delim])) = true) :
    ∀ (chunks : List (List Nat)) (acc : List Nat),
      (∀ c ∈ chunks, c ≠ []) →
      acc ++ flattenChunks chunks = name ++ delim :: (sf ++ delim :: rest) →
      (∃ u, acc ++ u = name ++ delim :: sf) →
      (pyInt sf = none → recvLoop ⟨acc, false, [], 0⟩ chunks = .error ()) ∧
      (∀ z : Int, pyInt sf = some z →
        ∃ d, recvLoop ⟨acc, false, [], 0⟩ chunks = .ok ⟨d, true, name, z⟩ ∧
          (∃ u, d ++ u = rest) ∧ (z ≤ (d.length : Int) ∨ d = rest)) := by
  intro chunks
  induction chunks with
  | nil =>
    rintro acc _ hflat ⟨u, hu⟩
    exfalso
    have hacc : acc = name ++ delim :: (sf ++ delim :: rest) := by
      simpa [flattenChunks] using hflat
    have h1 := congrArg List.length hu
    have h2 := congrArg List.length hacc
    simp [List.length_append] at h1 h2
    omega
  | cons c cs ih =>
    rintro acc hne hflat ⟨u, hu⟩
    have hc : c ≠ [] := hne c (by simp)
    have hflat2 : (acc ++ c) ++ flattenChunks cs = name ++ delim :: (sf ++ delim :: rest) := by
      simpa [flattenChunks, List.append_assoc] using hflat
    have hsplitInput : (acc ++ c) ++ flattenChunks cs
        = (name ++ delim :: sf) ++ delim :: rest := by
      simpa [List.append_assoc] using hflat2
    rcases split_of_append_eq (name ++ delim :: sf) hsplitInput with ⟨w, hw⟩ | ⟨t, v, hdt, htv⟩
    · have hnotyet : processHeader (acc ++ c) = .notYet := processHeader_notYet hn hs hw
      rw [recvLoop_cons _ _ _ hc, recvStep_noHeader _ _ hnotyet]
      exact ih (acc ++ c) (fun x hx => hne x (by simp [hx])) hflat2 ⟨w, hw⟩
    · cases t with
      | nil =>
        have hd2 : (acc ++ c) ++ ([] : List Nat) = name ++ delim :: sf := by
          simpa using hdt
        have hnotyet : processHeader (acc ++ c) = .notYet := processHeader_notYet hn hs hd2
        rw [recvLoop_cons _ _ _ hc, recvStep_noHeader _ _ hnotyet]
        exact ih (acc ++ c) (fun x hx => hne x (by simp [hx])) hflat2 ⟨[], hd2⟩
      | cons x t2 =>
        obtain ⟨rfl, ht2⟩ : x = delim ∧ t2 ++ v = rest := by simpa using htv
        have hdata : acc ++ c = name ++ delim :: (sf ++ delim :: t2) := by
          simpa [List.append_assoc] using hdt
        have hph : processHeader (acc ++ c) =
            match pyInt sf with
            | some z => .parsed name z t2
            | none => .failed := by
          rw [hdata]
          exact processHeader_complete hn hs hv
        have hrest : t2 ++ flattenChunks cs = rest := by
          have h6 := hflat2
          rw [hdata] at h6
          simpa [List.append_assoc] using h6
        constructor
        · intro hnone
          rw [hnone] at hph
          rw [recvLoop_cons _ _ _ hc, recvStep_failed _ _ hph]
        · intro z hz
          rw [hz] at hph
          rw [recvLoop_cons _ _ _ hc, recvStep_parsed _ _ hph]
          by_cases hbr : z ≤ ((t2.length : Nat) : Int)
          · rw [decide_eq_true hbr]
            exact ⟨t2, rfl, ⟨flattenChunks cs, hrest⟩, Or.inl hbr⟩
          · rw [decide_eq_false hbr]
            exact recvLoop_payload name z rest cs t2
              (fun x hx => hne x (by simp [hx])) hrest (not_le.mp hbr)

lemma takeAppendLe (d u : List Nat) (n : Nat) (h : n ≤ d.length) :
    (d ++ u).take n = d.take n := by
  induction d generalizing n with
  | nil =>
    simp at h
    simp [h]
  | cons x xs ih =>
    cases n with
    | zero => simp
    | succ m => simp [List.take_succ_cons, ih m (by simpa using h)]

lemma recvLoop_frame (name payload : List Nat) (n : Nat) (chunks : List (List Nat))
    (hval : utf8Valid name = true) (hn : delim ∉ name)
    (hne : ∀ c ∈ chunks, c ≠ [])
    (hflat : flattenChunks chunks = name ++ delim :: (natDigits n ++ delim :: payload))
    (hlen : n ≤ payload.length) :
    ∃ d, recvLoop initState chunks = .ok ⟨d, true, name, (n : Int)⟩ ∧
      pySlice (n : Int) d = payload.take n := by
  have hnd : delim ∉ natDigits n := by
    intro hm
    have := natDigits_mem delim hm
    simp [delim] at this
  have hv : utf8Valid (name ++ delim :: (natDigits n ++ [delim])) = true := by
    apply utf8Valid_append _ name hval
    apply utf8Valid_ascii
    intro b hb
    by_cases hbnd : b ∈ natDigits n
    · have := natDigits_mem b hbnd
      omega
    · have hbd : b = delim := by
        simp at hb
        tauto
      subst hbd
      simp [delim]
  obtain ⟨h1, h2⟩ := recvLoop_header name (natDigits n) payload hn hnd hv chunks []
    hne (by simpa using hflat) ⟨name ++ delim :: natDigits n, by simp⟩
  obtain ⟨d, hloop, ⟨u, hu⟩, hdisj⟩ := h2 (n : Int) (pyInt_natDigits n)
  have hn0 : (0 : Int) ≤ (n : Int) := by exact_mod_cast Nat.zero_le n
  refine ⟨d, hloop, ?_⟩
  rcases hdisj with hge | rfl
  · have hdn : n ≤ d.length := by exact_mod_cast hge
    rw [pySlice, if_pos hn0, Int.toNat_natCast, ← hu, takeAppendLe _ _ _ hdn]
  · rw [pySlice, if_pos hn0, Int.toNat_natCast]

/-- C2: for every file name without the delimiter (ranging over UTF-8 byte
    encodings of names) and every payload, feeding any splitting of the
    encoded frame into nonempty chunks to the streaming decoder of the server
    yields exactly the original name, the payload byte length as the declared
    size, and the payload itself: framing is chunk-boundary-independent and
    round-trips the client encoder. -/
theorem framing_roundtrip_chunked (name payload : List Nat) (chunks : List (List Nat))
    (hval : utf8Valid name = true) (hn : delim ∉ name)
    (hne : ∀ c ∈ chunks, c ≠ [])
    (hflat : flattenChunks chunks = encodeFrame name payload) :
    decodeFrame chunks = some (name, (payload.length : Int), payload) := by
  have hflat2 : flattenChunks chunks
      = name ++ delim :: (natDigits payload.length ++ delim :: payload) := by
    simpa [encodeFrame, encodeHeader, List.append_assoc] using hflat
  obtain ⟨d, hloop, hslice⟩ :=
    recvLoop_frame name payload payload.length chunks hval hn hne hflat2 le_rfl
  simp only [initState] at hloop
  simp [decodeFrame, initState, hloop, hslice]

/-- witness for C2 at a concrete frame split across the header -/
theorem framing_roundtrip_chunked_witness :
    decodeFrame [[97, 124], [49, 124, 120]] = some ([97], 1, [120]) :=
  framing_roundtrip_chunked [97] [120] [[97, 124], [49, 124, 120]]
    (by decide) (by decide) (by decide) (by decide)

/-- C7: when a complete frame arrives, with any number of payload bytes at
    least the declared size, the handler persists exactly the first size bytes
    of the payload under the output directory with the protocol-tag prefix on
    the declared name, and sends the fixed acknowledgement. -/
theorem server_persists_complete_frame (useTls : Bool) (name payload : List Nat) (n : Nat)
    (chunks : List (List Nat))
    (hval : utf8Valid name = true) (hn : delim ∉ name)
    (hne : ∀ c ∈ chunks, c ≠ [])
    (hflat : flattenChunks chunks = name ++ delim :: (natDigits n ++ delim :: payload))
    (hlen : n ≤ payload.length) :
    handle_client useTls chunks =
      ⟨some (outputPath useTls name, payload.take n), [ackMessage], false, true⟩ := by
  obtain ⟨d, hloop, hslice⟩ := recvLoop_frame name payload n chunks hval hn hne hflat hlen
  simp only [initState] at hloop
  simp [handle_client, initState, hloop, hslice]

/-- witness for C7: a frame with one extra byte beyond the declared size -/
theorem server_persists_complete_frame_witness :
    handle_client true [[97, 124, 49, 124, 120, 121]] =
      ⟨some (outputPath true [97], [120]), [ackMessage], false, true⟩ :=
  server_persists_complete_frame true [97] [120, 121] 1 [[97, 124, 49, 124, 120, 121]]
    (by decide) (by decide) (by decide) (by decide) (by decide)

/-- C3 counterexample: the header a|-1| has a size field that does not parse
    as a non-negative integer, yet the handler reports no error, persists a
    file, and sends the acknowledgement, so negative sizes are accepted. -/
theorem negative_size_accepted :
    (handle_client false [[97, 124, 45, 49, 124]]).errored = false ∧
    (handle_client false [[97, 124, 45, 49, 124]]).written
      = some (outputPath false [97], []) ∧
    (handle_client false [[97, 124, 45, 49, 124]]).sent = [ackMessage] := by decide

/-- C3 amended: a stream that never contains two delimiters produces no
    header: the handler closes without persisting, sending, or reporting an
    error; a header whose ASCII size field does not parse as a Python integer
    makes the handler fail with an error, persisting nothing and sending
    nothing.  A size field that parses as a negative integer is, however,
    accepted.  The size field is restricted to ASCII bytes because the
    byte-level integer model is exact only there: Python additionally accepts
    non-ASCII numerals and whitespace in decoded text. -/
theorem malformed_header_behavior (useTls : Bool) (chunks : List (List Nat))
    (hne : ∀ c ∈ chunks, c ≠ []) :
    (List.count delim (flattenChunks chunks) ≤ 1 →
      handle_client useTls chunks = ⟨none, [], false, true⟩) ∧
    (∀ name sf rest : List Nat, delim ∉ name → delim ∉ sf →
      (∀ b ∈ sf, b ≤ 127) →
      utf8Valid (name ++ delim :: (sf ++ [delim])) = true →
      pyInt sf = none →
      flattenChunks chunks = name ++ delim :: (sf ++ delim :: rest) →
      handle_client useTls chunks = ⟨none, [], true, true⟩) := by
  constructor
  · intro hcnt
    obtain ⟨d, hloop⟩ := recvLoop_no_header chunks [] hne (by simpa using hcnt)
    simp [handle_client, initState, hloop]
  · intro name sf rest hn hs hascii hv hnone hflat
    have h := (recvLoop_header name sf rest hn hs hv chunks [] hne (by simpa using hflat)
      ⟨name ++ delim :: sf, by simp⟩).1 hnone
    simp [handle_client, initState, h]

/-- witness for the amended C3: a delimiter-free stream yields no file, no
    ack, no error -/
theorem malformed_header_behavior_witness :
    handle_client false [[97, 98]] = ⟨none, [], false, true⟩ :=
  (malformed_header_behavior false [[97, 98]] (by decide)).1 (by decide)

/-- C1: evaluation at the failing input: the client sends the header f.txt
    with declared size 10 followed by only 3 payload bytes and closes; the
    handler persists the 3-byte file and sends the success acknowledgement
    instead of failing, contradicting the truncation requirement of the
    specification. -/
theorem truncated_transfer_persists_file :
    decodeFrame [[102, 46, 116, 120, 116, 124, 49, 48, 124, 97, 98, 99]]
      = some ([102, 46, 116, 120, 116], 10, [97, 98, 99]) ∧
    handle_client false [[102, 46, 116, 120, 116, 124, 49, 48, 124, 97, 98, 99]]
      = ⟨some (outputPath false [102, 46, 116, 120, 116], [97, 98, 99]),
         [ackMessage], false, true⟩ := by decide

/-- C4: on every path named by the claim the accepted connection socket is
    closed before the accept loop waits again: when the handler completes,
    when framing or persistence fails inside the handler, its finally clause
    closes the socket; when the server-side TLS handshake fails, the SSL
    socket construction has already detached and closed the accepted file
    descriptor before the exception reaches the accept loop. -/
theorem connection_closed_all_paths (useTls hsOk : Bool) (chunks : List (List Nat)) :
    (handle_client useTls chunks).socketClosed = true ∧
    (acceptIteration useTls hsOk chunks).2 = true := by
  have hcl : (handle_client useTls chunks).socketClosed = true := by
    unfold handle_client
    cases hres : recvLoop initState chunks with
    | error e => simp
    | ok st => by_cases h : st.headerReceived = true <;> simp [h]
  refine ⟨hcl, ?_⟩
  unfold acceptIteration
  by_cases h : (useTls && !hsOk) = true
  · simp [h]
  · simp [h, hcl]

/-- C5 counterexample: a plain connect refused by the transport and a TLS
    connect that fails only in the handshake return the same value False, so
    a caller observing only the returned result cannot tell transport failure
    from handshake failure. -/
theorem connect_failure_result_indistinguishable :
    (connect_plain false).1 = false ∧ (connect_tls true false).1 = false ∧
    (connect_plain false).1 = (connect_tls true false).1 := by decide

/-- C5 amended: both connect operations signal every failure by returning
    False; the failure class is visible only in the printed log message,
    which differs between the two operations but not between a transport
    failure and a handshake failure inside the TLS connect. -/
theorem connect_failure_signalling :
    ∀ w c : Bool, (connect_plain false).1 = false ∧
      ((connect_tls w c).1 = false ∨ (w = true ∧ c = true)) ∧
      (connect_plain false).2 ≠ (connect_tls w c).2 := by decide

/-- C6: whenever send_file succeeds, the recorded bytes_sent equals the byte
    length of the encoded header plus the byte length of the file content,
    and also equals the total number of bytes handed to the transport. -/
theorem send_file_bytes_sent (hs fe ro : Bool) (fn content : List Nat)
    (sh sp ra : Bool) (t0 t1 : Int) (st : TransferStats)
    (hok : (send_file hs fe ro fn content sh sp ra t0 t1 st).ok = true) :
    (send_file hs fe ro fn content sh sp ra t0 t1 st).stats.bytes_sent
      = (encodeHeader fn content.length).length + content.length ∧
    (send_file hs fe ro fn content sh sp ra t0 t1 st).stats.bytes_sent
      = ((send_file hs fe ro fn content sh sp ra t0 t1 st).wire.map List.length).sum := by
  cases hs <;> cases fe <;> cases ro <;> cases sh <;> cases sp <;> cases ra <;>
    simp [send_file] at hok ⊢

/-- witness for C6 at a concrete successful transfer -/
theorem send_file_bytes_sent_witness :
    (send_file true true true [97] [120, 121] true true true 0 1 initStats).stats.bytes_sent
      = (encodeHeader [97] 2).length + 2 :=
  (send_file_bytes_sent true true true [97] [120, 121] true true true 0 1 initStats
    (by decide)).1

/-- C8: in every successful send_file run the observable steps are exactly:
    the timer starts, the header write completes, the payload write completes,
    the timer stops, the acknowledgement read returns, the stats are updated;
    so the timed interval spans only the two send calls and the ack wait
    happens strictly after the timer stops. -/
theorem send_file_timer_boundary (hs fe ro : Bool) (fn content : List Nat)
    (sh sp ra : Bool) (t0 t1 : Int) (st : TransferStats)
    (hok : (send_file hs fe ro fn content sh sp ra t0 t1 st).ok = true) :
    (send_file hs fe ro fn content sh sp ra t0 t1 st).trace
      = [ClientEvent.timeStart, ClientEvent.sendHeader, ClientEvent.sendPayload,
         ClientEvent.timeEnd, ClientEvent.recvAck, ClientEvent.statsUpdate] := by
  cases hs <;> cases fe <;> cases ro <;> cases sh <;> cases sp <;> cases ra <;>
    simp [send_file] at hok ⊢

/-- witness for C8 at a concrete successful transfer -/
theorem send_file_timer_boundary_witness :
    (send_file true true true [97] [120] true true true 0 1 initStats).trace
      = [ClientEvent.timeStart, ClientEvent.sendHeader, ClientEvent.sendPayload,
         ClientEvent.timeEnd, ClientEvent.recvAck, ClientEvent.statsUpdate] :=
  send_file_timer_boundary true true true [97] [120] true true true 0 1 initStats (by decide)

/-- C10: every failing send_file call leaves transfer_stats exactly as it
    was, and the stats update step happens only at the end of the successful
    trace, strictly after the acknowledgement read returns. -/
theorem send_file_stats_on_failure (hs fe ro : Bool) (fn content : List Nat)
    (sh sp ra : Bool) (t0 t1 : Int) (st : TransferStats) :
    ((send_file hs fe ro fn content sh sp ra t0 t1 st).ok = false →
      (send_file hs fe ro fn content sh sp ra t0 t1 st).stats = st) ∧
    (ClientEvent.statsUpdate ∈ (send_file hs fe ro fn content sh sp ra t0 t1 st).trace →
      (send_file hs fe ro fn content sh sp ra t0 t1 st).trace
        = [ClientEvent.timeStart, ClientEvent.sendHeader, ClientEvent.sendPayload,
           ClientEvent.timeEnd] ++ [ClientEvent.recvAck, ClientEvent.statsUpdate]) := by
  cases hs <;> cases fe <;> cases ro <;> cases sh <;> cases sp <;> cases ra <;>
    simp [send_file]

/-- witness for C10: a failed acknowledgement read leaves the stats intact -/
theorem send_file_stats_on_failure_witness :
    (send_file true true true [97] [120] true true false 0 1 initStats).stats = initStats :=
  (send_file_stats_on_failure true true true [97] [120] true true false 0 1 initStats).1
    (by decide)

lemma serverLoop_length (useTls : Bool) :
    ∀ events : List AcceptEvent, AcceptEvent.keyboardInterrupt ∉ events →
      (serverLoop useTls events).length = events.countP isConnEvent := by
  intro events
  induction events with
  | nil => intro _; simp [serverLoop]
  | cons e rest ih =>
    intro h
    have hrest : AcceptEvent.keyboardInterrupt ∉ rest := fun m => h (by simp [m])
    cases e with
    | conn hs cs => simp [serverLoop, List.countP_cons, isConnEvent, ih hrest]
    | acceptError => simp [serverLoop, List.countP_cons, isConnEvent, ih hrest]
    | keyboardInterrupt => exact absurd (by simp) h

/-- C9: with a successful bind and listen, the accept loop serves every
    incoming connection, whatever errors its handshake or handler produce:
    the number of served connections equals the number of connection events;
    with a failed bind or listen, no connection is ever served. -/
theorem accept_loop_survives_connection_errors (useTls : Bool) (events : List AcceptEvent)
    (hki : AcceptEvent.keyboardInterrupt ∉ events) :
    (serverStart useTls true events).length = events.countP isConnEvent ∧
    serverStart useTls false events = [] := by
  exact ⟨by simpa [serverStart] using serverLoop_length useTls events hki,
    by simp [serverStart]⟩

/-- witness for C9: a failing handshake and a failed accept do not stop the
    loop, and a failed bind serves nothing -/
theorem accept_loop_survives_connection_errors_witness :
    (serverStart true true [AcceptEvent.conn false [], AcceptEvent.acceptError,
      AcceptEvent.conn true [[97]]]).length = 2 ∧
    serverStart true false [AcceptEvent.conn false [], AcceptEvent.acceptError,
      AcceptEvent.conn true [[97]]] = [] := by
  have h := accept_loop_survives_connection_errors true
    [AcceptEvent.conn false [], AcceptEvent.acceptError, AcceptEvent.conn true [[97]]]
    (by decide)
  exact ⟨by simpa using h.1, h.2⟩

/-- closed instance of the amended C5 statement at a handshake failure -/
theorem connect_failure_signalling_witness :
    (connect_plain false).1 = false ∧
    ((connect_tls true false).1 = false ∨ (true = true ∧ false = true)) ∧
    (connect_plain false).2 ≠ (connect_tls true false).2 :=
  connect_failure_signalling true false
